import Mathlib

/-!
Verification of the favorites store and move-search subsystem of the
favorite_files repository (src/main.py), over a shallow embedding.

The embedding models:
* `posixpath.normpath` (used by the code as `os.path.normpath`; the model
  fixes POSIX path semantics: separator '/', case-sensitive names),
  working on `List Char`, which faithfully models Python `str` for the
  splitting/joining done by `normpath`;
* `FavoriteFilesManager` (`add_favorite`, `remove_favorite`,
  `update_favorite_path`, `_load_favorites`, `_save_favorites`) as pure
  state-passing functions.  A manager state carries the in-memory list,
  the persisted file contents (`none` models an absent or unparseable
  file) and a counter of completed save calls.  Wall-clock readings
  (`datetime.now().isoformat()`) are passed in explicitly as the `now`
  argument.  Python `int` indices are modelled as `Int`;
* `FindMovedFileDialog.auto_search`: the directory walk (`os.walk` with
  the `dirs.clear()` depth pruning), `fnmatch` matching modelled after
  the stdlib's translate-then-match design, `os.path.join`, and the
  cooperative cancellation of the search loop (`QProgressDialog`
  cancellation is modelled as a monotone signal: `none` for "never
  cancelled", `some k` for "every cancellation check from the k-th one
  on reports cancelled").
-/

/-! ### The model of `posixpath.normpath`

CPython's `posixpath.normpath`: split on '/', drop empty and '.'
components, resolve '..' against the accumulated components, rejoin,
keeping one or exactly two leading slashes. -/

/-- Model of Python `str.split('/')` on the character list of the string. -/
def splitSep : List Char → List (List Char)
  | [] => [[]]
  | c :: cs =>
    if c = '/' then [] :: splitSep cs
    else
      match splitSep cs with
      | [] => [[c]]
      | g :: gs => (c :: g) :: gs

/-- Model of Python `'/'.join(comps)` on character lists. -/
def intercalateSep : List (List Char) → List Char
  | [] => []
  | [g] => g
  | g :: gs => g ++ '/' :: intercalateSep gs

/-- Number of leading '/' characters that `posixpath.normpath` keeps:
`initial_slashes` is 1 when the path starts with '/', upgraded to 2 when
it starts with two slashes but not three (POSIX: "//" is special). -/
def initialSlashes (l : List Char) : Nat :=
  if l.head? = some '/' then
    if l.tail.head? = some '/' ∧ ¬l.tail.tail.head? = some '/' then 2 else 1
  else 0

/-- One iteration of the component loop of `posixpath.normpath`.  The
accumulator is kept reversed (head = most recently appended component),
so Python's `new_comps[-1]` is `acc.head?` and `new_comps.pop()` is
`acc.tail`. -/
def normStep (sl : Bool) (acc : List (List Char)) (comp : List Char) : List (List Char) :=
  if comp = [] ∨ comp = ['.'] then acc
  else if comp ≠ ['.', '.'] ∨ (sl = false ∧ acc = []) ∨ acc.head? = some ['.', '.'] then
    comp :: acc
  else acc.tail

/-- `posixpath.normpath` on a character list. -/
def normList (s : List Char) : List Char :=
  if s = [] then ['.']
  else
    let k := initialSlashes s
    let comps := splitSep s
    let ncomps := (comps.foldl (normStep (k != 0)) []).reverse
    let joined := List.replicate k '/' ++ intercalateSep ncomps
    if joined = [] then ['.'] else joined

/-- Model of `os.path.normpath` (POSIX). -/
def normpath (s : String) : String := String.mk (normList s.data)

/-! ### The favorites store (`FavoriteFilesManager`) -/

/-- One favorites record, as serialized to `favorites.json`:
`{"path": ..., "description": ..., "added_on": ..., "updated_on": ...}`,
where `updated_on` is present only once the path has been rewritten.
Timestamps are the ISO-8601 strings produced by
`datetime.now().isoformat()`. -/
structure Favorite where
  path : String
  description : String
  added_on : String
  updated_on : Option String
deriving DecidableEq

/-- State of a `FavoriteFilesManager`: the in-memory list, the contents
of the storage file (`none` models an absent or undecodable file — both
make `_load_favorites` fall back to the empty list; `some l` models a
file holding the serialization of `l`, using that `json.loads ∘
json.dumps` is the identity on these records), and a counter of
completed `_save_favorites` calls. -/
structure ManagerState where
  favorites : List Favorite
  file : Option (List Favorite)
  saves : Nat
deriving DecidableEq

/-- `FavoriteFilesManager._load_favorites`: the decoded list, or `[]`
when the file is absent or does not decode. -/
def load_favorites : Option (List Favorite) → List Favorite
  | some favs => favs
  | none => []

/-- `FavoriteFilesManager.__init__`: load the favorites from storage. -/
def mkManager (file : Option (List Favorite)) : ManagerState :=
  { favorites := load_favorites file, file := file, saves := 0 }

/-- `FavoriteFilesManager._save_favorites`: rewrite the storage file
with the current list. -/
def save_favorites (st : ManagerState) : ManagerState :=
  { st with file := some st.favorites, saves := st.saves + 1 }

/-- Placeholder record for `List.getD`; every use below is guarded by an
in-range index, so its value is never observed. -/
def defaultFavorite : Favorite :=
  { path := "", description := "", added_on := "", updated_on := none }

/-- `FavoriteFilesManager.add_favorite`. -/
def add_favorite (st : ManagerState) (path description now : String) :
    ManagerState × Bool × String :=
  let normalized_path := normpath path
  if st.favorites.any fun fav => fav.path = normalized_path then
    (st, false, "'" ++ normalized_path ++ "' is already in your favorites.")
  else
    let entry : Favorite :=
      { path := normalized_path, description := description,
        added_on := now, updated_on := none }
    (save_favorites { st with favorites := st.favorites ++ [entry] },
     true, "Added '" ++ normalized_path ++ "' to favorites.")

/-- `FavoriteFilesManager.remove_favorite`. -/
def remove_favorite (st : ManagerState) (index : Int) :
    ManagerState × Bool × String :=
  if st.favorites = [] ∨ index < 0 ∨ (st.favorites.length : Int) ≤ index then
    (st, false, "Invalid index.")
  else
    let removed := st.favorites.getD index.toNat defaultFavorite
    (save_favorites { st with favorites := st.favorites.eraseIdx index.toNat },
     true, "Removed '" ++ removed.path ++ "' from favorites.")

/-- `FavoriteFilesManager.update_favorite_path`. -/
def update_favorite_path (st : ManagerState) (index : Int) (new_path now : String) :
    ManagerState × Bool × String :=
  if st.favorites = [] ∨ index < 0 ∨ (st.favorites.length : Int) ≤ index then
    (st, false, "Invalid index.")
  else
    let old := st.favorites.getD index.toNat defaultFavorite
    let updated := { old with path := normpath new_path, updated_on := some now }
    (save_favorites { st with favorites := st.favorites.set index.toNat updated },
     true, "Updated path from '" ++ old.path ++ "' to '" ++ new_path ++ "'.")

/-- All record paths are stored in normalized form — the data-model
invariant of the store (§3 of the spec: `path` is a normalized path
string; every writing operation stores `os.path.normpath` output). -/
def normalizedStore (favs : List Favorite) : Prop :=
  ∀ r ∈ favs, normpath r.path = r.path

/-- "No two records share the same normalized path". -/
def uniqueNormPaths (favs : List Favorite) : Prop :=
  (favs.map fun r => normpath r.path).Nodup

/-! ### C5: out-of-range `remove`/`updatePath` fail without mutation -/

/-- C5: for every store and every index outside `[0, len)`,
`remove_favorite` and `update_favorite_path` both return failure with
the "Invalid index." message and leave the state (records and persisted
file alike) untouched. -/
theorem c5_invalid_index (st : ManagerState) (index : Int)
    (p now : String)
    (h : index < 0 ∨ (st.favorites.length : Int) ≤ index) :
    remove_favorite st index = (st, false, "Invalid index.") ∧
      update_favorite_path st index p now = (st, false, "Invalid index.") := by
  constructor
  · unfold remove_favorite
    rw [if_pos (Or.inr h)]
  · unfold update_favorite_path
    rw [if_pos (Or.inr h)]

/-- A concrete one-record state used by witnesses. -/
def stOne : ManagerState :=
  mkManager (some [⟨"/a", "", "t0", none⟩])

/-- Witness for C5 at a concrete state and index. -/
theorem c5_invalid_index_witness :
    remove_favorite stOne 1 = (stOne, false, "Invalid index.") ∧
      update_favorite_path stOne 1 "/b" "t1" = (stOne, false, "Invalid index.") :=
  c5_invalid_index stOne 1 "/b" "t1" (by decide)

/-! ### C8: load, save, load is the identity -/

/-- C8: loading the store, saving it unmodified, then loading again
yields the very same record sequence as the first load, for every
storage-file content (including an absent/corrupt file). -/
theorem c8_load_save_load (file : Option (List Favorite)) :
    load_favorites (save_favorites (mkManager file)).file =
      load_favorites file := by
  cases file <;> rfl

/-! ### C2: adding a duplicate path fails and changes nothing -/

/-- C2: on a store whose record paths are normalized (the data-model
invariant), adding a path whose normalized form coincides with the
normalized path of an existing record returns failure with a message and
returns the state — favorites list, persisted file, and save counter —
completely unchanged. -/
theorem c2_duplicate_add (st : ManagerState) (p d now : String)
    (hnorm : normalizedStore st.favorites)
    (hdup : ∃ r ∈ st.favorites, normpath p = normpath r.path) :
    add_favorite st p d now =
      (st, false, "'" ++ normpath p ++ "' is already in your favorites.") := by
  obtain ⟨r, hr, heq⟩ := hdup
  have hre : r.path = normpath p := by rw [← hnorm r hr, heq]
  have hany : (st.favorites.any fun fav => fav.path = normpath p) = true :=
    List.any_eq_true.mpr ⟨r, hr, by simp [hre]⟩
  simp only [add_favorite, hany, if_true]

/-- Witness for C2:  adding `"/a//b"` to a store already holding
`"/a/b"` fails and leaves the state untouched. -/
theorem c2_duplicate_add_witness :
    add_favorite (mkManager (some [⟨"/a/b", "", "t0", none⟩])) "/a//b" "x" "t1" =
      (mkManager (some [⟨"/a/b", "", "t0", none⟩]), false,
        "'" ++ normpath "/a//b" ++ "' is already in your favorites.") :=
  c2_duplicate_add (mkManager (some [⟨"/a/b", "", "t0", none⟩])) "/a//b" "x" "t1"
    (by intro r hr; fin_cases hr; decide)
    ⟨⟨"/a/b", "", "t0", none⟩, by decide, by decide⟩

/-! ### C7: a successful path update stores the normalized new path and
a fresh `updated_on` -/

/-- C7: for an in-range index, `update_favorite_path` succeeds, and the
record at that index afterwards carries the normalized new path and
`updated_on = some now`; provided the clock reading `now` at the update
is later than the record's `added_on` (ISO-8601 strings compare
chronologically via their character sequences), the stored `updated_on`
is later than `added_on`. -/
theorem c7_update_round_trip (st : ManagerState) (index : Int)
    (new_path now : String)
    (h0 : 0 ≤ index) (h1 : index < (st.favorites.length : Int))
    (hclock : (st.favorites.getD index.toNat defaultFavorite).added_on.data
        < now.data) :
    (update_favorite_path st index new_path now).2.1 = true ∧
    ((update_favorite_path st index new_path now).1.favorites.getD
        index.toNat defaultFavorite).path = normpath new_path ∧
    ((update_favorite_path st index new_path now).1.favorites.getD
        index.toNat defaultFavorite).updated_on = some now ∧
    ((update_favorite_path st index new_path now).1.favorites.getD
        index.toNat defaultFavorite).added_on.data < now.data := by
  have hne : ¬(st.favorites = [] ∨ index < 0 ∨
      (st.favorites.length : Int) ≤ index) := by
    push_neg
    refine ⟨?_, h0, h1⟩
    intro he
    rw [he] at h1
    simp at h1
    omega
  have hlt : index.toNat < st.favorites.length := by omega
  rw [List.getD_eq_getElem?_getD] at hclock
  simp only [update_favorite_path, if_neg hne, save_favorites,
    List.getD_eq_getElem?_getD]
  refine ⟨by trivial, ?_, ?_, ?_⟩
  · rw [List.getElem?_set_eq_of_lt _ hlt, Option.getD_some]
  · rw [List.getElem?_set_eq_of_lt _ hlt, Option.getD_some]
  · rw [List.getElem?_set_eq_of_lt _ hlt, Option.getD_some]
    exact hclock

/-- Witness for C7 on a concrete store and timestamps. -/
theorem c7_update_round_trip_witness :
    (update_favorite_path stOne 0 "/a/c/f.txt" "t1").2.1 = true ∧
    ((update_favorite_path stOne 0 "/a/c/f.txt" "t1").1.favorites.getD
        0 defaultFavorite).path = normpath "/a/c/f.txt" ∧
    ((update_favorite_path stOne 0 "/a/c/f.txt" "t1").1.favorites.getD
        0 defaultFavorite).updated_on = some "t1" ∧
    ((update_favorite_path stOne 0 "/a/c/f.txt" "t1").1.favorites.getD
        0 defaultFavorite).added_on.data < ("t1" : String).data :=
  c7_update_round_trip stOne 0 "/a/c/f.txt" "t1" (by decide) (by decide)
    (by decide)

/-! ### C10: the frame of `update_favorite_path` -/

/-- C10: a successful `update_favorite_path` at index `i` preserves the
number and order of records, leaves every record at an index other than
`i` untouched, and leaves the `description` and `added_on` fields of the
record at `i` unchanged. -/
theorem c10_update_frame (st : ManagerState) (index : Int)
    (new_path now : String)
    (h0 : 0 ≤ index) (h1 : index < (st.favorites.length : Int)) :
    (update_favorite_path st index new_path now).2.1 = true ∧
    (update_favorite_path st index new_path now).1.favorites.length =
      st.favorites.length ∧
    (∀ j : Nat, j ≠ index.toNat →
      (update_favorite_path st index new_path now).1.favorites[j]? =
        st.favorites[j]?) ∧
    ((update_favorite_path st index new_path now).1.favorites.getD
        index.toNat defaultFavorite).description =
      (st.favorites.getD index.toNat defaultFavorite).description ∧
    ((update_favorite_path st index new_path now).1.favorites.getD
        index.toNat defaultFavorite).added_on =
      (st.favorites.getD index.toNat defaultFavorite).added_on := by
  have hne : ¬(st.favorites = [] ∨ index < 0 ∨
      (st.favorites.length : Int) ≤ index) := by
    push_neg
    refine ⟨?_, h0, h1⟩
    intro he
    rw [he] at h1
    simp at h1
    omega
  have hlt : index.toNat < st.favorites.length := by omega
  simp only [update_favorite_path, if_neg hne, save_favorites,
    List.getD_eq_getElem?_getD]
  refine ⟨by trivial, by simp, ?_, ?_, ?_⟩
  · intro j hj
    exact List.getElem?_set_ne (Ne.symm hj)
  · rw [List.getElem?_set_eq_of_lt _ hlt, Option.getD_some]
  · rw [List.getElem?_set_eq_of_lt _ hlt, Option.getD_some]

/-- Witness for C10 on a concrete store. -/
theorem c10_update_frame_witness :
    (update_favorite_path stOne 0 "/b" "t1").2.1 = true ∧
    (update_favorite_path stOne 0 "/b" "t1").1.favorites.length =
      stOne.favorites.length ∧
    (∀ j : Nat, j ≠ (0 : Int).toNat →
      (update_favorite_path stOne 0 "/b" "t1").1.favorites[j]? =
        stOne.favorites[j]?) ∧
    ((update_favorite_path stOne 0 "/b" "t1").1.favorites.getD
        0 defaultFavorite).description =
      (stOne.favorites.getD 0 defaultFavorite).description ∧
    ((update_favorite_path stOne 0 "/b" "t1").1.favorites.getD
        0 defaultFavorite).added_on =
      (stOne.favorites.getD 0 defaultFavorite).added_on :=
  c10_update_frame stOne 0 "/b" "t1" (by decide) (by decide)

/-! ### C9: paths stored in the store are never empty -/

/-- All record paths are non-empty. -/
def nonEmptyPaths (favs : List Favorite) : Prop :=
  ∀ r ∈ favs, r.path ≠ ""

/-- `normList` never produces the empty character list: it returns
`['.']` in the two degenerate branches and a non-empty `joined`
otherwise. -/
theorem normList_ne_nil (s : List Char) : normList s ≠ [] := by
  unfold normList
  by_cases h : s = []
  · simp [h]
  · simp only [if_neg h]
    split
    · simp
    · assumption

/-- `os.path.normpath` never returns the empty string (it returns `"."`
for empty input). -/
theorem normpath_ne_empty (s : String) : normpath s ≠ "" := by
  intro h
  exact normList_ne_nil s.data (by simpa [normpath, String.ext_iff] using h)

/-- C9: the normalized path stored by any successful `add_favorite` or
`update_favorite_path` is non-empty — `normpath` never returns `""`,
even on the empty input — and consequently every store operation
preserves the invariant that no record's path is empty. -/
theorem c9_nonempty_paths (st : ManagerState) (p d now newp : String)
    (index : Int) (h : nonEmptyPaths st.favorites) :
    normpath p ≠ "" ∧
    nonEmptyPaths (add_favorite st p d now).1.favorites ∧
    nonEmptyPaths (remove_favorite st index).1.favorites ∧
    nonEmptyPaths (update_favorite_path st index newp now).1.favorites := by
  refine ⟨normpath_ne_empty p, ?_, ?_, ?_⟩
  · rcases Bool.eq_false_or_eq_true
        (st.favorites.any fun fav => fav.path = normpath p) with hc | hc
    · intro r hr
      simp only [add_favorite, hc, if_true] at hr
      exact h r hr
    · intro r hr
      simp only [add_favorite, hc, Bool.false_eq_true, if_false,
        save_favorites, List.mem_append, List.mem_singleton] at hr
      rcases hr with hr | hr
      · exact h r hr
      · rw [hr]
        exact normpath_ne_empty p
  · unfold remove_favorite
    split
    · exact h
    · intro r hr
      exact h r ((List.eraseIdx_sublist st.favorites index.toNat).subset hr)
  · unfold update_favorite_path
    split
    · exact h
    · intro r hr
      simp only [save_favorites] at hr
      rcases List.mem_or_eq_of_mem_set hr with hr | hr
      · exact h r hr
      · rw [hr]
        exact normpath_ne_empty newp

/-- Witness for C9 on a concrete store, with the empty string as the
added path. -/
theorem c9_nonempty_paths_witness :
    normpath "" ≠ "" ∧
    nonEmptyPaths (add_favorite stOne "" "d" "t1").1.favorites ∧
    nonEmptyPaths (remove_favorite stOne 0).1.favorites ∧
    nonEmptyPaths (update_favorite_path stOne 0 "" "t1").1.favorites :=
  c9_nonempty_paths stOne "" "d" "t1" "" 0
    (by intro r hr; fin_cases hr; decide)

/-! ### Structure of `normpath` output, and idempotence

`posixpath.normpath` is idempotent; this is what makes "the stored paths
are normalized" a store invariant.  The proof characterises the shape of
the component list the loop produces: a (possibly empty) run of `".."`
components first (only for relative paths), followed by components that
are neither empty nor `"."` nor `".."`. -/

theorem splitSep_ne_nil (l : List Char) : splitSep l ≠ [] := by
  cases l with
  | nil => simp [splitSep]
  | cons c cs =>
    simp only [splitSep]
    split
    · simp
    · split <;> simp

theorem sepFree_of_mem_splitSep (g : List Char) (l : List Char)
    (hg : g ∈ splitSep l) : '/' ∉ g := by
  induction l generalizing g with
  | nil =>
    simp only [splitSep, List.mem_singleton] at hg
    simp [hg]
  | cons c cs ih =>
    simp only [splitSep] at hg
    by_cases hc : c = '/'
    · rw [if_pos hc] at hg
      rcases List.mem_cons.mp hg with h1 | h1
      · simp [h1]
      · exact ih g h1
    · rw [if_neg hc] at hg
      rcases hsplit : splitSep cs with _ | ⟨g0, gs⟩
      · exact absurd hsplit (splitSep_ne_nil cs)
      · rw [hsplit] at hg
        rcases List.mem_cons.mp hg with h1 | h1
        · rw [h1]
          intro hmem
          rcases List.mem_cons.mp hmem with h2 | h2
          · exact hc h2.symm
          · exact ih g0 (hsplit ▸ List.mem_cons_self g0 gs) h2
        · exact ih g (hsplit ▸ List.mem_cons_of_mem g0 h1)

theorem splitSep_sepFree (g : List Char) (hf : '/' ∉ g) : splitSep g = [g] := by
  induction g with
  | nil => rfl
  | cons c cs ih =>
    have hc : ¬(c = '/') := fun h => hf (h ▸ List.mem_cons_self c cs)
    have ih2 := ih fun h => hf (List.mem_cons_of_mem c h)
    simp only [splitSep, if_neg hc, ih2]

theorem splitSep_append_sep (g r : List Char) (hf : '/' ∉ g) :
    splitSep (g ++ '/' :: r) = g :: splitSep r := by
  induction g with
  | nil => simp [splitSep]
  | cons c cs ih =>
    have hc : ¬(c = '/') := fun h => hf (h ▸ List.mem_cons_self c cs)
    have ih2 := ih fun h => hf (List.mem_cons_of_mem c h)
    simp only [List.cons_append, splitSep, if_neg hc, List.append_eq, ih2]

theorem splitSep_intercalateSep (l : List (List Char)) (hne : l ≠ [])
    (hf : ∀ g ∈ l, '/' ∉ g) : splitSep (intercalateSep l) = l := by
  induction l with
  | nil => exact absurd rfl hne
  | cons g gs ih =>
    cases gs with
    | nil =>
      simp only [intercalateSep]
      exact splitSep_sepFree g (hf g (List.mem_cons_self g []))
    | cons h t =>
      show splitSep (g ++ '/' :: intercalateSep (h :: t)) = _
      rw [splitSep_append_sep g _ (hf g (List.mem_cons_self g (h :: t))),
        ih (by simp) fun x hx => hf x (List.mem_cons_of_mem g hx)]

/-- A component that survives into `new_comps` and is not `".."`:
non-empty, not `"."`, not `".."`. -/
def goodComp (g : List Char) : Prop :=
  g ≠ [] ∧ g ≠ ['.'] ∧ g ≠ ['.', '.']

/-- Shape invariant of the (reversed) accumulator of the component
loop: good components first, then a run of `".."`, the latter only for
relative paths. -/
def accShape (sl : Bool) (acc : List (List Char)) : Prop :=
  ∃ front k, acc = front ++ List.replicate k ['.', '.'] ∧
    (∀ g ∈ front, goodComp g) ∧ (sl = true → k = 0)

theorem normStep_shape (sl : Bool) (acc : List (List Char))
    (comp : List Char) (h : accShape sl acc) :
    accShape sl (normStep sl acc comp) := by
  obtain ⟨front, k, hacc, hfront, hk⟩ := h
  unfold normStep
  split
  · exact ⟨front, k, hacc, hfront, hk⟩
  · rename_i h1
    split
    · rename_i h2
      by_cases hdd : comp = ['.', '.']
      · rcases h2 with h2 | h2 | h2
        · exact absurd hdd h2
        · refine ⟨[], 1, ?_, by simp, ?_⟩
          · rw [h2.2, hdd]
            rfl
          · intro hsl
            rw [h2.1] at hsl
            cases hsl
        · cases front with
          | nil =>
            refine ⟨[], k + 1, ?_, by simp, ?_⟩
            · rw [hacc, hdd]
              simp [List.replicate_succ]
            · intro hsl
              rw [hacc, hk hsl] at h2
              simp at h2
          | cons f fs =>
            rw [hacc] at h2
            simp only [List.cons_append, List.head?_cons,
              Option.some_inj] at h2
            exact absurd h2 (hfront f (List.mem_cons_self f fs)).2.2
      · refine ⟨comp :: front, k, by rw [hacc]; rfl, ?_, hk⟩
        intro g hg
        rcases List.mem_cons.mp hg with hg | hg
        · refine hg ▸ ⟨?_, ?_, hdd⟩
          · intro he
            exact h1 (Or.inl he)
          · intro he
            exact h1 (Or.inr he)
        · exact hfront g hg
    · rename_i h2
      push_neg at h2
      obtain ⟨hdd, hnotempty, hhead⟩ := h2
      cases front with
      | nil =>
        cases k with
        | zero =>
          simp only [hacc, List.nil_append, List.replicate]
          exact ⟨[], 0, rfl, by simp, fun _ => rfl⟩
        | succ n =>
          rw [hacc] at hhead
          simp [List.replicate_succ] at hhead
      | cons f fs =>
        refine ⟨fs, k, ?_, ?_, hk⟩
        · rw [hacc]
          rfl
        · intro g hg
          exact hfront g (List.mem_cons_of_mem f hg)

theorem foldl_normStep_shape (sl : Bool) (comps : List (List Char))
    (acc : List (List Char)) (h : accShape sl acc) :
    accShape sl (comps.foldl (normStep sl) acc) := by
  induction comps generalizing acc with
  | nil => exact h
  | cons c cs ih => exact ih (normStep sl acc c) (normStep_shape sl acc c h)

theorem accShape_nil (sl : Bool) : accShape sl [] :=
  ⟨[], 0, rfl, by simp, fun _ => rfl⟩

theorem mem_normStep (sl : Bool) (acc : List (List Char))
    (comp g : List Char) (h : g ∈ normStep sl acc comp) :
    g = comp ∨ g ∈ acc := by
  unfold normStep at h
  split at h
  · exact Or.inr h
  · split at h
    · rcases List.mem_cons.mp h with h | h
      · exact Or.inl h
      · exact Or.inr h
    · exact Or.inr (List.mem_of_mem_tail h)

theorem mem_foldl_normStep (sl : Bool) (comps : List (List Char))
    (acc : List (List Char)) (g : List Char)
    (h : g ∈ comps.foldl (normStep sl) acc) : g ∈ acc ∨ g ∈ comps := by
  induction comps generalizing acc with
  | nil => exact Or.inl h
  | cons c cs ih =>
    rcases ih (normStep sl acc c) h with h1 | h1
    · rcases mem_normStep sl acc c g h1 with h2 | h2
      · exact Or.inr (h2 ▸ List.mem_cons_self c cs)
      · exact Or.inl h2
    · exact Or.inr (List.mem_cons_of_mem c h1)

theorem foldl_normStep_good (sl : Bool) (rest : List (List Char))
    (acc : List (List Char)) (hg : ∀ g ∈ rest, goodComp g) :
    rest.foldl (normStep sl) acc = rest.reverse ++ acc := by
  induction rest generalizing acc with
  | nil => simp
  | cons g gs ih =>
    obtain ⟨hne, hdot, hdd⟩ := hg g (List.mem_cons_self g gs)
    have hstep : normStep sl acc g = g :: acc := by
      unfold normStep
      rw [if_neg (by simp [hne, hdot]), if_pos (Or.inl hdd)]
    rw [List.foldl_cons, hstep,
      ih (g :: acc) fun x hx => hg x (List.mem_cons_of_mem g hx)]
    simp

theorem foldl_normStep_dd (k j : Nat) :
    (List.replicate k ['.', '.']).foldl (normStep false)
        (List.replicate j ['.', '.']) =
      List.replicate (k + j) ['.', '.'] := by
  induction k generalizing j with
  | zero => simp
  | succ n ih =>
    have hstep : normStep false (List.replicate j ['.', '.']) ['.', '.'] =
        List.replicate (j + 1) ['.', '.'] := by
      unfold normStep
      rw [if_neg (by simp), if_pos, List.replicate_succ]
      cases j with
      | zero => exact Or.inr (Or.inl ⟨rfl, rfl⟩)
      | succ m => exact Or.inr (Or.inr (by simp [List.replicate_succ]))
    rw [List.replicate_succ, List.foldl_cons, hstep, ih (j + 1)]
    congr 1
    omega

theorem foldl_normStep_fix (sl : Bool) (k : Nat) (front : List (List Char))
    (hg : ∀ g ∈ front, goodComp g) (hsl : sl = true → k = 0) :
    (List.replicate k ['.', '.'] ++ front.reverse).foldl (normStep sl) [] =
      front ++ List.replicate k ['.', '.'] := by
  cases sl with
  | true =>
    rw [hsl rfl]
    simp only [List.replicate, List.nil_append, List.append_nil]
    rw [foldl_normStep_good true front.reverse []
      (fun g hgm => hg g (List.mem_reverse.mp hgm))]
    simp
  | false =>
    rw [List.foldl_append]
    have h0 := foldl_normStep_dd k 0
    simp only [List.replicate, Nat.add_zero] at h0
    rw [h0, foldl_normStep_good false front.reverse _
      (fun g hgm => hg g (List.mem_reverse.mp hgm))]
    simp

theorem initialSlashes_cases (l : List Char) :
    initialSlashes l = 0 ∨ initialSlashes l = 1 ∨ initialSlashes l = 2 := by
  unfold initialSlashes
  split
  · split
    · right; right; rfl
    · right; left; rfl
  · left; rfl

theorem initialSlashes_of_head_ne (l : List Char) (h : ¬l.head? = some '/') :
    initialSlashes l = 0 := by
  unfold initialSlashes
  rw [if_neg h]

theorem normStep_nil_comp (sl : Bool) (acc : List (List Char)) :
    normStep sl acc [] = acc := by
  unfold normStep
  rw [if_pos (Or.inl rfl)]

theorem intercalateSep_cons_head (c : Char) (g : List Char)
    (gs : List (List Char)) :
    ∃ tl, intercalateSep ((c :: g) :: gs) = c :: tl := by
  cases gs with
  | nil => exact ⟨g, rfl⟩
  | cons h t => exact ⟨g ++ '/' :: intercalateSep (h :: t), rfl⟩

/-- `normList` written without its `let` bindings, for rewriting. -/
theorem normList_expand (s : List Char) (hs : s ≠ []) :
    normList s =
      if List.replicate (initialSlashes s) '/' ++
          intercalateSep (((splitSep s).foldl
            (normStep (initialSlashes s != 0)) []).reverse) = [] then ['.']
      else
        List.replicate (initialSlashes s) '/' ++
          intercalateSep (((splitSep s).foldl
            (normStep (initialSlashes s != 0)) []).reverse) := by
  rw [normList, if_neg hs]

/-- `normList` is the identity on any list already of the output shape:
`k ∈ {0,1,2}` leading slashes, then the join of components that satisfy
the accumulator-shape invariant and contain no separator. -/
theorem normList_of_shape (k : Nat) (l : List (List Char))
    (hk : k = 0 ∨ k = 1 ∨ k = 2)
    (hshape : accShape (k != 0) l.reverse)
    (hsep : ∀ g ∈ l, '/' ∉ g)
    (hne : List.replicate k '/' ++ intercalateSep l ≠ []) :
    normList (List.replicate k '/' ++ intercalateSep l) =
      List.replicate k '/' ++ intercalateSep l := by
  obtain ⟨front, m, hrev, hfront, hm⟩ := hshape
  have hl : l = List.replicate m ['.', '.'] ++ front.reverse := by
    rw [← List.reverse_reverse l, hrev]
    simp [List.reverse_append, List.reverse_replicate]
  cases l with
  | nil =>
    rcases hk with hk | hk | hk
    · subst hk
      exact absurd rfl hne
    · subst hk
      decide
    · subst hk
      decide
  | cons g0 gs =>
    have hfix : ((g0 :: gs).foldl (normStep (k != 0)) []).reverse
        = g0 :: gs := by
      rw [hl, foldl_normStep_fix (k != 0) m front hfront hm,
        List.reverse_append, List.reverse_replicate]
    have hg0ne : g0 ≠ [] := by
      have hg0m : g0 ∈ List.replicate m ['.', '.'] ++ front.reverse :=
        hl ▸ List.mem_cons_self g0 gs
      rcases List.mem_append.mp hg0m with h | h
      · rw [List.eq_of_mem_replicate h]
        simp
      · exact (hfront g0 (List.mem_reverse.mp h)).1
    obtain ⟨c, g0', rfl⟩ : ∃ c g0', g0 = c :: g0' := by
      cases g0 with
      | nil => exact absurd rfl hg0ne
      | cons c g0' => exact ⟨c, g0', rfl⟩
    have hc : ¬c = '/' := by
      intro h
      exact hsep (c :: g0') (List.mem_cons_self _ gs)
        (h ▸ List.mem_cons_self c g0')
    obtain ⟨tl, hj⟩ := intercalateSep_cons_head c g0' gs
    have hsplit : splitSep (intercalateSep ((c :: g0') :: gs)) =
        (c :: g0') :: gs :=
      splitSep_intercalateSep _ (by simp) hsep
    rcases hk with hk | hk | hk
    · subst hk
      simp only [List.replicate, List.nil_append] at hne ⊢
      rw [normList_expand _ hne]
      have hk0 : initialSlashes (intercalateSep ((c :: g0') :: gs)) = 0 := by
        rw [hj]
        exact initialSlashes_of_head_ne _ (by simp [hc])
      rw [hk0, hsplit, hfix, if_neg (by simpa using hne)]
      simp
    · subst hk
      rw [normList_expand _ hne]
      have ht : List.replicate 1 '/' ++ intercalateSep ((c :: g0') :: gs)
          = '/' :: intercalateSep ((c :: g0') :: gs) := rfl
      have hk1 : initialSlashes (List.replicate 1 '/' ++
          intercalateSep ((c :: g0') :: gs)) = 1 := by
        rw [ht, hj]
        simp [initialSlashes, hc]
      have hsplit1 : splitSep (List.replicate 1 '/' ++
          intercalateSep ((c :: g0') :: gs)) = [] :: (c :: g0') :: gs := by
        rw [ht]
        simp [splitSep, hsplit]
      rw [hk1, hsplit1, List.foldl_cons, normStep_nil_comp, hfix, if_neg hne]
    · subst hk
      rw [normList_expand _ hne]
      have ht : List.replicate 2 '/' ++ intercalateSep ((c :: g0') :: gs)
          = '/' :: '/' :: intercalateSep ((c :: g0') :: gs) := rfl
      have hk2 : initialSlashes (List.replicate 2 '/' ++
          intercalateSep ((c :: g0') :: gs)) = 2 := by
        rw [ht, hj]
        simp [initialSlashes, hc]
      have hsplit2 : splitSep (List.replicate 2 '/' ++
          intercalateSep ((c :: g0') :: gs)) =
          [] :: [] :: (c :: g0') :: gs := by
        rw [ht]
        simp [splitSep, hsplit]
      rw [hk2, hsplit2, List.foldl_cons, normStep_nil_comp,
        List.foldl_cons, normStep_nil_comp, hfix, if_neg hne]

/-- `posixpath.normpath` is idempotent (character-list level). -/
theorem normList_idem (s : List Char) : normList (normList s) = normList s := by
  by_cases hs : s = []
  · subst hs
    decide
  · rw [normList_expand s hs]
    by_cases hj : List.replicate (initialSlashes s) '/' ++
        intercalateSep (((splitSep s).foldl
          (normStep (initialSlashes s != 0)) []).reverse) = []
    · rw [if_pos hj]
      decide
    · rw [if_neg hj]
      apply normList_of_shape
      · exact initialSlashes_cases s
      · rw [List.reverse_reverse]
        exact foldl_normStep_shape _ _ [] (accShape_nil _)
      · intro g hg
        rcases mem_foldl_normStep _ _ [] g (List.mem_reverse.mp hg) with h | h
        · exact absurd h (List.not_mem_nil g)
        · exact sepFree_of_mem_splitSep g s h
      · exact hj

/-- `os.path.normpath` is idempotent. -/
theorem normpath_idem (s : String) : normpath (normpath s) = normpath s :=
  congrArg String.mk (normList_idem s.data)

/-! ### C3: which operations preserve path uniqueness

`add_favorite` refuses duplicates and `remove_favorite` only deletes, so
both preserve the "no two records share the same normalized path"
invariant.  `update_favorite_path`, however, performs no uniqueness
check (the code simply overwrites the field), so it can produce two
records with the same normalized path. -/

/-- The two-record store reached from an empty store by adding `/a` and
then `/b` — a store reachable purely through the store's own API. -/
def stTwo : ManagerState :=
  (add_favorite (add_favorite (mkManager none) "/a" "" "t1").1 "/b" "" "t2").1

/-- Counterexample for C3: on the reachable store holding `/a` and
`/b`, the uniqueness invariant holds, yet after
`update_favorite_path 0 "/b"` it no longer does — the operation does
not preserve the invariant. -/
theorem c3_counterexample :
    uniqueNormPaths stTwo.favorites ∧
      ¬uniqueNormPaths (update_favorite_path stTwo 0 "/b" "t3").1.favorites := by
  constructor
  · show (stTwo.favorites.map fun r => normpath r.path).Nodup
    decide
  · show ¬((update_favorite_path stTwo 0 "/b" "t3").1.favorites.map
      fun r => normpath r.path).Nodup
    decide

/-- C3 (amended): `add_favorite` and `remove_favorite` preserve the
store invariant — all paths stored normalized, and no two records with
the same normalized path; `update_favorite_path` does not (see the
counterexample). -/
theorem c3_add_remove_preserve (st : ManagerState) (p d now : String)
    (index : Int) (hnorm : normalizedStore st.favorites)
    (huniq : uniqueNormPaths st.favorites) :
    (uniqueNormPaths (add_favorite st p d now).1.favorites ∧
      normalizedStore (add_favorite st p d now).1.favorites) ∧
    (uniqueNormPaths (remove_favorite st index).1.favorites ∧
      normalizedStore (remove_favorite st index).1.favorites) := by
  constructor
  · rcases Bool.eq_false_or_eq_true
        (st.favorites.any fun fav => fav.path = normpath p) with hc | hc
    · have heq : (add_favorite st p d now).1 = st := by
        simp only [add_favorite, hc, if_true]
      rw [heq]
      exact ⟨huniq, hnorm⟩
    · have hnodup : ∀ r ∈ st.favorites, ¬(r.path = normpath p) := by
        intro r hr hre
        exact List.any_eq_false.mp hc r hr (decide_eq_true hre)
      constructor
      · show ((add_favorite st p d now).1.favorites.map
          fun r => normpath r.path).Nodup
        simp only [add_favorite, hc, Bool.false_eq_true, if_false,
          save_favorites, List.map_append, List.map_cons, List.map_nil]
        rw [List.nodup_append]
        refine ⟨huniq, by simp, ?_⟩
        intro x hxm hxs
        simp only [List.mem_singleton] at hxs
        obtain ⟨r, hr, hxr⟩ := List.mem_map.mp hxm
        rw [← hxr, hnorm r hr] at hxs
        rw [normpath_idem p] at hxs
        exact hnodup r hr hxs
      · intro r hr
        simp only [add_favorite, hc, Bool.false_eq_true, if_false,
          save_favorites, List.mem_append, List.mem_singleton] at hr
        rcases hr with hr | hr
        · exact hnorm r hr
        · rw [hr]
          exact normpath_idem p
  · rcases remove_case : remove_favorite st index with ⟨st1, ok, msg⟩
    unfold remove_favorite at remove_case
    split at remove_case
    · cases remove_case
      exact ⟨huniq, hnorm⟩
    · cases remove_case
      constructor
      · show ((st.favorites.eraseIdx index.toNat).map
          fun r => normpath r.path).Nodup
        exact ((List.eraseIdx_sublist st.favorites index.toNat).map _).nodup
          huniq
      · intro r hr
        exact hnorm r
          ((List.eraseIdx_sublist st.favorites index.toNat).subset hr)

/-- Witness for the amended C3 on a concrete store. -/
theorem c3_add_remove_preserve_witness :
    ((uniqueNormPaths (add_favorite stTwo "/c" "" "t3").1.favorites ∧
      normalizedStore (add_favorite stTwo "/c" "" "t3").1.favorites) ∧
    (uniqueNormPaths (remove_favorite stTwo 0).1.favorites ∧
      normalizedStore (remove_favorite stTwo 0).1.favorites)) :=
  c3_add_remove_preserve stTwo "/c" "" "t3" 0
    (by intro r hr; fin_cases hr <;> decide)
    (by show (stTwo.favorites.map fun r => normpath r.path).Nodup; decide)

/-! ### The move search (`FindMovedFileDialog.auto_search`)

The searched directory trees are finite rose trees (`DirTree` with a
named-subdirectory list `DirList`); `os.walk(location)` with `topdown`
semantics yields each directory before its subdirectories, in order, and
clearing `dirs` prunes the recursion — exactly what the code relies on
for its depth bound.  Paths are the strings `os.walk` produces: the
location string extended with `os.path.join`. -/

mutual
inductive DirTree where
  | node (files : List String) (subs : DirList)
inductive DirList where
  | nil : DirList
  | cons (name : String) (d : DirTree) (rest : DirList) : DirList
end

/-- `path.count(os.sep)` for `os.sep = '/'`. -/
def countSep (s : String) : Nat := s.data.count '/'

/-- `os.path.join` (POSIX, two arguments). -/
def joinPath (a b : String) : String :=
  if b.data.head? = some '/' then b
  else if a = "" ∨ a.data.getLast? = some '/' then a ++ b
  else a ++ "/" ++ b

/-! #### The `fnmatch` model

`fnmatch.filter(names, pattern)` (with POSIX `normcase`, the identity)
translates the glob pattern once and then matches every name against
it.  The model mirrors that two-phase design: `translate` turns the
pattern into tokens (`*`, `?`, a character class, or a literal
character; an unterminated `[` is a literal, as in the stdlib), and
`matchToks` is the backtracking full-string matcher.  `translateAux`
carries a fuel argument bounded by the pattern length — every step
consumes at least one pattern character, so `translate` gives it enough
fuel. -/

inductive Tok where
  | star : Tok
  | any : Tok
  | cls (neg : Bool) (chars : List Char) : Tok
  | lit (c : Char) : Tok
deriving DecidableEq

/-- Split a character-class body at the first `]` (the `pat.find(']')`
of `fnmatch.translate`); `none` when there is no closing bracket. -/
def splitClose : List Char → Option (List Char × List Char)
  | [] => none
  | c :: cs =>
    if c = ']' then some ([], cs)
    else (splitClose cs).map fun pr => (c :: pr.1, pr.2)

/-- Class scanning of `fnmatch.translate` for the text after a `[`:
a leading `!` negates; a `]` directly after that is part of the class
body. Returns the negation flag, the class body and the rest of the
pattern. -/
def parseClassAux (neg : Bool) : List Char → Option (Bool × List Char × List Char)
  | ']' :: rest => (splitClose rest).map fun pr => (neg, ']' :: pr.1, pr.2)
  | other => (splitClose other).map fun pr => (neg, pr.1, pr.2)

def parseClass : List Char → Option (Bool × List Char × List Char)
  | '!' :: p1 => parseClassAux true p1
  | p1 => parseClassAux false p1

/-- Membership in a character class body, with `a-b` ranges (the regex
`[...]` that `fnmatch.translate` emits). -/
def inClass : List Char → Char → Bool
  | [], _ => false
  | [a], c => a = c
  | a :: '-' :: b :: rest, c => (a ≤ c && c ≤ b) || inClass rest c
  | a :: rest, c => (a = c) || inClass rest c

def translateAux : Nat → List Char → List Tok
  | 0, _ => []
  | _ + 1, [] => []
  | fuel + 1, c :: ps =>
    if c = '*' then Tok.star :: translateAux fuel ps
    else if c = '?' then Tok.any :: translateAux fuel ps
    else if c = '[' then
      match parseClass ps with
      | some (neg, body, rest) => Tok.cls neg body :: translateAux fuel rest
      | none => Tok.lit '[' :: translateAux fuel ps
    else Tok.lit c :: translateAux fuel ps

/-- `fnmatch.translate`. -/
def translatePat (p : List Char) : List Tok := translateAux p.length p

/-- Try `f` on a suffix after dropping 0, 1, 2, … characters — the
backtracking behind `*`/regex `.*`. -/
def tryDrops (f : List Char → Bool) : List Char → Bool
  | [] => f []
  | c :: cs => f (c :: cs) || tryDrops f cs

/-- Full-string matching of a token list (the `re.match(..)` with the
`\Z` anchor that `fnmatch` performs). -/
def matchToks : List Tok → List Char → Bool
  | [], s => s.isEmpty
  | Tok.star :: ts, s => tryDrops (fun u => matchToks ts u) s
  | Tok.any :: ts, s =>
    match s with
    | [] => false
    | _ :: cs => matchToks ts cs
  | Tok.cls neg body :: ts, s =>
    match s with
    | [] => false
    | c :: cs => (neg != inClass body c) && matchToks ts cs
  | Tok.lit a :: ts, s =>
    match s with
    | [] => false
    | c :: cs => (a = c) && matchToks ts cs

/-- `fnmatch.fnmatch(name, pat)` on POSIX. -/
def fnmatchB (name pat : String) : Bool := matchToks (translatePat pat.data) name.data

/-! #### The walk and the search loop -/

mutual
/-- The `(root, dirs, files)` sequence that the `for root, dirs, files
in os.walk(location)` loop of `auto_search` processes, with the pruning
`if root.count(os.sep) - location.count(os.sep) > 5: dirs.clear()`
applied after the yield of each directory (`d0` is
`location.count(os.sep)`).  Only `root` and `files` are recorded; the
(possibly cleared) `dirs` only steers the recursion. -/
def walkSteps (d0 : Nat) (path : String) : DirTree → List (String × List String)
  | .node _files subs =>
    (path, _files) ::
      (if (countSep path : Int) - (d0 : Int) > 5 then []
       else walkStepsList d0 path subs)
def walkStepsList (d0 : Nat) (path : String) : DirList → List (String × List String)
  | .nil => []
  | .cons name d rest =>
    walkSteps d0 (joinPath path name) d ++ walkStepsList d0 path rest
end

/-- The body of one walk iteration: `fnmatch.filter(files,
self.filename)` joined onto `root` and appended to `found_files`. -/
def stepMatches (filename path : String) (files : List String) : List String :=
  (files.filter fun f => fnmatchB f filename).map fun f => joinPath path f

/-- The candidates `auto_search` accumulates from one root directory
when no cancellation occurs. -/
def searchLoc (filename location : String) (t : DirTree) : List String :=
  ((walkSteps (countSep location) location t).map
    fun st => stepMatches filename st.1 st.2).flatten

/-- One `progress.wasCanceled()` reading: `tick` counts the readings
made so far; `none` models a run where the user never cancels, `some k`
a run where every reading from the `k`-th one on reports cancelled
(cancellation is monotone: once pressed, it stays pressed). -/
def checkCanceled : Option Nat → Nat → Bool
  | none, _ => false
  | some k, tick => decide (k ≤ tick)

/-- The inner `for root, dirs, files in os.walk(location)` loop with its
`if progress.wasCanceled(): break` check before each iteration; carries
(`found_files`, reading counter). -/
def innerLoop (ca : Option Nat) (filename : String) :
    List (String × List String) → List String × Nat → List String × Nat
  | [], st => st
  | (path, files) :: rest, (found, tick) =>
    if checkCanceled ca tick then (found, tick + 1)
    else innerLoop ca filename rest
      (found ++ stepMatches filename path files, tick + 1)

/-- The outer `for i, location in enumerate(common_locations)` loop of
`auto_search`, with its `if progress.wasCanceled(): break` check at the
top of each iteration.  Returns the accumulated `found_files` and the
reading counter. -/
def auto_search (ca : Option Nat) (filename : String) :
    List (String × DirTree) → List String × Nat → List String × Nat
  | [], st => st
  | (location, t) :: rest, (found, tick) =>
    if checkCanceled ca tick then (found, tick + 1)
    else auto_search ca filename rest
      (innerLoop ca filename (walkSteps (countSep location) location t)
        (found, tick + 1))

/-! ### C6: what the filename matching accepts

`fnmatch` performs glob matching, so a searched filename containing a
glob metacharacter can match names that differ from it.  When the
filename contains no metacharacter, glob matching coincides with exact
string equality. -/

/-- The searched filename contains no glob metacharacter. -/
def noMeta (p : String) : Bool :=
  p.data.all fun c => (c != '*') && (c != '?') && (c != '[')

theorem translateAux_lit (fuel : Nat) (l : List Char) (hf : l.length ≤ fuel)
    (h : ∀ c ∈ l, ¬c = '*' ∧ ¬c = '?' ∧ ¬c = '[') :
    translateAux fuel l = l.map Tok.lit := by
  induction fuel generalizing l with
  | zero =>
    rw [Nat.le_zero, List.length_eq_zero] at hf
    subst hf
    rfl
  | succ n ih =>
    cases l with
    | nil => rfl
    | cons c cs =>
      obtain ⟨h1, h2, h3⟩ := h c (List.mem_cons_self c cs)
      have hcs : cs.length ≤ n := by
        simp only [List.length_cons] at hf
        omega
      simp only [translateAux, if_neg h1, if_neg h2, if_neg h3, List.map_cons,
        ih cs hcs fun x hx => h x (List.mem_cons_of_mem c hx)]

theorem matchToks_lit (l s : List Char) :
    matchToks (l.map Tok.lit) s = decide (s = l) := by
  induction l generalizing s with
  | nil =>
    cases s with
    | nil => simp [matchToks]
    | cons c cs => simp [matchToks]
  | cons a l ih =>
    cases s with
    | nil => simp [matchToks]
    | cons c cs =>
      simp only [List.map_cons, matchToks, ih]
      rcases Decidable.em (a = c) with hac | hac
      · subst hac
        simp [List.cons_eq_cons]
      · have hne : ¬(c :: cs = a :: l) := by
          intro heq
          exact hac (List.cons_eq_cons.mp heq).1.symm
        simp [hac, hne]

/-- Without metacharacters in the pattern, `fnmatch` is exact equality. -/
theorem fnmatchB_noMeta (f pat : String) (h : noMeta pat = true) :
    fnmatchB f pat = decide (f = pat) := by
  unfold fnmatchB translatePat
  have hmeta : ∀ c ∈ pat.data, ¬c = '*' ∧ ¬c = '?' ∧ ¬c = '[' := by
    intro c hc
    have := List.all_eq_true.mp h c hc
    simp only [Bool.and_eq_true, bne_iff_ne, ne_eq] at this
    exact ⟨this.1.1, this.1.2, this.2⟩
  rw [translateAux_lit pat.data.length pat.data le_rfl hmeta, matchToks_lit]
  exact decide_eq_decide.mpr String.ext_iff.symm

/-- Modelled from the spec: "Matching is by exact filename equality" —
the per-root search with literal string equality in place of `fnmatch`,
the comparison point of the C6 refinement. -/
def searchLocEq (filename location : String) (t : DirTree) : List String :=
  ((walkSteps (countSep location) location t).map
    fun st => (st.2.filter fun f => f = filename).map
      fun f => joinPath st.1 f).flatten

/-- C6 (amended): the search returns exactly the encountered files
whose name glob-matches the searched filename; whenever the searched
filename contains no glob metacharacter (`*`, `?`, `[`) this is exact
filename equality — the search then coincides step by step with the
exact-equality search. -/
theorem c6_exact_match (filename location : String) (t : DirTree)
    (h : noMeta filename = true) :
    searchLoc filename location t = searchLocEq filename location t := by
  unfold searchLoc searchLocEq
  congr 1
  apply List.map_congr_left
  intro st _
  unfold stepMatches
  congr 1
  apply List.filter_congr
  intro f _
  rw [fnmatchB_noMeta f filename h]

/-- Witness for the amended C6 on a concrete tree. -/
theorem c6_exact_match_witness :
    searchLoc "f.txt" "r" (.node ["f.txt", "g.txt"]
        (.cons "sub" (.node ["f.txt"] .nil) .nil)) =
      searchLocEq "f.txt" "r" (.node ["f.txt", "g.txt"]
        (.cons "sub" (.node ["f.txt"] .nil) .nil)) :=
  c6_exact_match "f.txt" "r" _ (by decide)

/-- Counterexample for C6 as stated: searching for the filename `a*`
returns the file named `ab`, although `ab` differs from `a*` — with a
metacharacter in the bookmarked filename, returned candidates need not
be named exactly like it. -/
theorem c6_counterexample :
    searchLoc "a*" "r" (.node ["ab"] .nil) = ["r/ab"] ∧
      ("ab" : String) ≠ "a*" := by
  constructor
  · decide
  · decide

/-! ### C1: the depth bound of the search

The code prunes the walk only *after* matching the files of the current
directory, and only once `root.count(os.sep) - location.count(os.sep)`
*exceeds* 5.  Directories up to separator-depth 6 below the root are
therefore still visited and their files still returned, so a candidate
can lie at separator-depth 7 below the root; directories deeper than 6
are never entered. -/

mutual
/-- All file and subdirectory names in the tree are free of the path
separator — what the OS guarantees for the name components `os.walk`
reports. -/
def sepFreeTree : DirTree → Bool
  | .node files subs =>
    (files.all fun f => f.data.all fun c => c != '/') && sepFreeList subs
def sepFreeList : DirList → Bool
  | .nil => true
  | .cons name d rest =>
    ((name.data.all fun c => c != '/') && sepFreeTree d) && sepFreeList rest
end

theorem countSep_append (a b : String) :
    countSep (a ++ b) = countSep a + countSep b := by
  unfold countSep
  rw [String.data_append, List.count_append]

theorem countSep_of_sepFree (b : String)
    (hb : (b.data.all fun c => c != '/') = true) : countSep b = 0 := by
  unfold countSep
  rw [List.count_eq_zero]
  intro hmem
  have := List.all_eq_true.mp hb '/' hmem
  simp at this

theorem countSep_joinPath (a b : String)
    (hb : (b.data.all fun c => c != '/') = true) :
    countSep (joinPath a b) ≤ countSep a + 1 := by
  have hb0 : countSep b = 0 := countSep_of_sepFree b hb
  unfold joinPath
  split
  · omega
  · split
    · rw [countSep_append]
      omega
    · rw [countSep_append, countSep_append]
      have h1 : countSep "/" = 1 := by decide
      omega

mutual
theorem walkSteps_bound (d0 : Nat) (path : String) (t : DirTree)
    (hwf : sepFreeTree t = true) (hp : countSep path ≤ d0 + 6) :
    ∀ st ∈ walkSteps d0 path t, countSep st.1 ≤ d0 + 6 ∧
      ∀ f ∈ st.2, (f.data.all fun c => c != '/') = true := by
  cases t with
  | node files subs =>
    simp only [sepFreeTree, Bool.and_eq_true] at hwf
    intro st hst
    simp only [walkSteps] at hst
    rcases List.mem_cons.mp hst with h | h
    · rw [h]
      exact ⟨hp, fun f hf => List.all_eq_true.mp hwf.1 f hf⟩
    · rcases Decidable.em ((countSep path : Int) - (d0 : Int) > 5) with hd | hd
      · rw [if_pos hd] at h
        exact absurd h (List.not_mem_nil st)
      · rw [if_neg hd] at h
        have hp5 : countSep path ≤ d0 + 5 := by omega
        exact walkStepsList_bound d0 path subs hwf.2 hp5 st h
theorem walkStepsList_bound (d0 : Nat) (path : String) (l : DirList)
    (hwf : sepFreeList l = true) (hp : countSep path ≤ d0 + 5) :
    ∀ st ∈ walkStepsList d0 path l, countSep st.1 ≤ d0 + 6 ∧
      ∀ f ∈ st.2, (f.data.all fun c => c != '/') = true := by
  cases l with
  | nil =>
    intro st hst
    exact absurd hst (List.not_mem_nil st)
  | cons name d rest =>
    simp only [sepFreeList, Bool.and_eq_true] at hwf
    intro st hst
    simp only [walkStepsList, List.mem_append] at hst
    rcases hst with h | h
    · refine walkSteps_bound d0 (joinPath path name) d hwf.1.2 ?_ st h
      have := countSep_joinPath path name hwf.1.1
      omega
    · exact walkStepsList_bound d0 path rest hwf.2 hp st h
end

/-- C1 (amended): on trees whose name components are separator-free,
the walk never visits a directory at separator-depth more than 6 below
the root (descent stops below depth-6 directories, since pruning fires
once the depth exceeds 5), and every returned candidate lies at
separator-depth at most 7 below the root.  The bounds 6 and 7 are
attained — see the counterexample — so 5 is not a bound on the
candidates. -/
theorem c1_depth_bound (filename location : String) (t : DirTree)
    (hwf : sepFreeTree t = true) :
    (∀ st ∈ walkSteps (countSep location) location t,
      countSep st.1 ≤ countSep location + 6) ∧
    (∀ p ∈ searchLoc filename location t,
      countSep p ≤ countSep location + 7) := by
  have hb := walkSteps_bound (countSep location) location t hwf (by omega)
  constructor
  · intro st hst
    exact (hb st hst).1
  · intro p hp
    unfold searchLoc at hp
    rw [List.mem_flatten] at hp
    obtain ⟨lm, hlm, hplm⟩ := hp
    obtain ⟨st, hst, rfl⟩ := List.mem_map.mp hlm
    unfold stepMatches at hplm
    obtain ⟨f, hf, rfl⟩ := List.mem_map.mp hplm
    have h1 := (hb st hst).1
    have h2 := (hb st hst).2 f (List.mem_of_mem_filter hf)
    have h3 := countSep_joinPath st.1 f h2
    omega

/-- A directory tree of depth 8 below the root: a chain
`a1/a2/…/a8`, with `f.txt` present in `a6` (depth 6), `a7` (depth 7)
and `a8` (depth 8). -/
def deepChain : DirTree :=
  .node [] (.cons "a1" (.node [] (.cons "a2" (.node [] (.cons "a3" (.node []
    (.cons "a4" (.node [] (.cons "a5" (.node [] (.cons "a6" (.node ["f.txt"]
      (.cons "a7" (.node ["f.txt"] (.cons "a8" (.node ["f.txt"] .nil) .nil))
        .nil)) .nil)) .nil)) .nil)) .nil)) .nil)) .nil)

/-- Witness for the amended C1 on the depth-8 chain. -/
theorem c1_depth_bound_witness :
    (∀ st ∈ walkSteps (countSep "/home/user/Documents")
        "/home/user/Documents" deepChain,
      countSep st.1 ≤ countSep "/home/user/Documents" + 6) ∧
    (∀ p ∈ searchLoc "f.txt" "/home/user/Documents" deepChain,
      countSep p ≤ countSep "/home/user/Documents" + 7) :=
  c1_depth_bound "f.txt" "/home/user/Documents" deepChain (by decide)

/-- Counterexample for C1 as stated: searching for `f.txt` below the
root `/home/user/Documents` on the depth-8 chain returns exactly the
candidate inside the depth-6 directory — a candidate at nesting
(separator) depth 7 > 5 below the root.  (The copies at depth 7 and 8
are *not* returned: pruning stops the descent below depth-6
directories.) -/
theorem c1_counterexample :
    searchLoc "f.txt" "/home/user/Documents" deepChain =
      ["/home/user/Documents/a1/a2/a3/a4/a5/a6/f.txt"] ∧
    countSep "/home/user/Documents/a1/a2/a3/a4/a5/a6/f.txt" -
        countSep "/home/user/Documents" > 5 := by
  constructor
  · decide
  · decide

/-! ### C4: cooperative cancellation -/

theorem checkCanceled_mono (ca : Option Nat) (t1 t2 : Nat) (h12 : t1 ≤ t2)
    (hc : checkCanceled ca t1 = true) : checkCanceled ca t2 = true := by
  cases ca with
  | none => exact hc
  | some k =>
    simp only [checkCanceled, decide_eq_true_eq] at hc ⊢
    omega

/-- An uncancelled inner loop collects every match of every walk step,
in walk order, and performs one cancellation reading per step. -/
theorem innerLoop_none (filename : String)
    (steps : List (String × List String)) (found : List String) (tick : Nat) :
    innerLoop none filename steps (found, tick) =
      (found ++ (steps.map fun st => stepMatches filename st.1 st.2).flatten,
        tick + steps.length) := by
  induction steps generalizing found tick with
  | nil => simp [innerLoop]
  | cons s rest ih =>
    obtain ⟨path, files⟩ := s
    have hc : checkCanceled none tick = false := rfl
    simp only [innerLoop, hc, Bool.false_eq_true, if_false, ih,
      List.map_cons, List.flatten_cons]
    rw [List.append_assoc]
    simp only [Prod.mk.injEq, List.length_cons, true_and, eq_self_iff_true]
    omega

theorem innerLoop_extends (ca : Option Nat) (filename : String)
    (steps : List (String × List String)) (found : List String) (tick : Nat) :
    ∃ ext, (innerLoop ca filename steps (found, tick)).1 = found ++ ext := by
  induction steps generalizing found tick with
  | nil => exact ⟨[], by simp [innerLoop]⟩
  | cons s rest ih =>
    obtain ⟨path, files⟩ := s
    by_cases hc : checkCanceled ca tick = true
    · exact ⟨[], by simp [innerLoop, hc]⟩
    · obtain ⟨e, he⟩ :=
        ih (found ++ stepMatches filename path files) (tick + 1)
      refine ⟨stepMatches filename path files ++ e, ?_⟩
      simp only [innerLoop, if_neg hc]
      rw [he, List.append_assoc]

/-- A run of the inner loop either is never interrupted — and then
coincides with the uncancelled run — or ends cancelled, with the
uncancelled run extending its output and every later cancellation
reading still reporting cancelled. -/
theorem innerLoop_cases (ca : Option Nat) (filename : String)
    (steps : List (String × List String)) (found : List String) (tick : Nat) :
    innerLoop ca filename steps (found, tick) =
        innerLoop none filename steps (found, tick) ∨
      ((∃ ext, (innerLoop none filename steps (found, tick)).1 =
          (innerLoop ca filename steps (found, tick)).1 ++ ext) ∧
        checkCanceled ca (innerLoop ca filename steps (found, tick)).2 =
          true) := by
  induction steps generalizing found tick with
  | nil => exact Or.inl rfl
  | cons s rest ih =>
    obtain ⟨path, files⟩ := s
    by_cases hc : checkCanceled ca tick = true
    · right
      have hca : innerLoop ca filename ((path, files) :: rest) (found, tick) =
          (found, tick + 1) := by
        simp [innerLoop, hc]
      rw [hca, innerLoop_none]
      exact ⟨⟨_, rfl⟩, checkCanceled_mono ca tick (tick + 1)
        (Nat.le_succ tick) hc⟩
    · have hnc : checkCanceled none tick = false := rfl
      have hca : innerLoop ca filename ((path, files) :: rest) (found, tick) =
          innerLoop ca filename rest
            (found ++ stepMatches filename path files, tick + 1) := by
        simp [innerLoop, hc]
      have hnone : innerLoop none filename ((path, files) :: rest)
            (found, tick) =
          innerLoop none filename rest
            (found ++ stepMatches filename path files, tick + 1) := by
        simp [innerLoop, hnc]
      rw [hca, hnone]
      exact ih _ _

/-- Once a cancellation reading reports cancelled, the outer loop adds
nothing more: the accumulated candidates are returned as they are. -/
theorem auto_search_halts (ca : Option Nat) (filename : String)
    (locs : List (String × DirTree)) (found : List String) (tick : Nat)
    (hc : checkCanceled ca tick = true) :
    (auto_search ca filename locs (found, tick)).1 = found := by
  cases locs with
  | nil => rfl
  | cons l rest =>
    obtain ⟨location, t⟩ := l
    simp [auto_search, hc]

theorem auto_search_extends (ca : Option Nat) (filename : String)
    (locs : List (String × DirTree)) (found : List String) (tick : Nat) :
    ∃ ext, (auto_search ca filename locs (found, tick)).1 = found ++ ext := by
  induction locs generalizing found tick with
  | nil => exact ⟨[], by simp [auto_search]⟩
  | cons l rest ih =>
    obtain ⟨location, t⟩ := l
    by_cases hc : checkCanceled ca tick = true
    · exact ⟨[], by simp [auto_search, hc]⟩
    · obtain ⟨e1, he1⟩ := innerLoop_extends ca filename
        (walkSteps (countSep location) location t) found (tick + 1)
      rcases hinner : innerLoop ca filename
          (walkSteps (countSep location) location t) (found, tick + 1) with
        ⟨found2, tick2⟩
      obtain ⟨e2, he2⟩ := ih found2 tick2
      refine ⟨e1 ++ e2, ?_⟩
      simp only [auto_search, if_neg hc, hinner, he2]
      rw [hinner] at he1
      simp only at he1
      rw [he1, List.append_assoc]

/-- The cancelled run's candidate list is a prefix of the uncancelled
run's. -/
theorem auto_search_prefix (ca : Option Nat) (filename : String)
    (locs : List (String × DirTree)) (found : List String) (tick : Nat) :
    ∃ ext, (auto_search none filename locs (found, tick)).1 =
      (auto_search ca filename locs (found, tick)).1 ++ ext := by
  induction locs generalizing found tick with
  | nil => exact ⟨[], by simp [auto_search]⟩
  | cons l rest ih =>
    obtain ⟨location, t⟩ := l
    have hnc : checkCanceled none tick = false := rfl
    have hnone : auto_search none filename ((location, t) :: rest)
          (found, tick) =
        auto_search none filename rest
          (innerLoop none filename
            (walkSteps (countSep location) location t) (found, tick + 1)) := by
      simp [auto_search, hnc]
    by_cases hc : checkCanceled ca tick = true
    · have hca : (auto_search ca filename ((location, t) :: rest)
            (found, tick)).1 = found :=
        auto_search_halts ca filename _ found tick hc
      obtain ⟨e1, he1⟩ := innerLoop_extends none filename
        (walkSteps (countSep location) location t) found (tick + 1)
      rcases hinner : innerLoop none filename
          (walkSteps (countSep location) location t) (found, tick + 1) with
        ⟨found2, tick2⟩
      obtain ⟨e2, he2⟩ := auto_search_extends none filename rest found2 tick2
      refine ⟨e1 ++ e2, ?_⟩
      rw [hca, hnone]
      simp only [hinner, he2]
      rw [hinner] at he1
      simp only at he1
      rw [he1, List.append_assoc]
    · have hca : auto_search ca filename ((location, t) :: rest)
            (found, tick) =
          auto_search ca filename rest
            (innerLoop ca filename
              (walkSteps (countSep location) location t)
              (found, tick + 1)) := by
        simp [auto_search, hc]
      rw [hca, hnone]
      rcases innerLoop_cases ca filename
          (walkSteps (countSep location) location t) found (tick + 1) with
        heq | ⟨⟨e1, he1⟩, hcanc⟩
      · rw [heq]
        rcases innerLoop none filename
            (walkSteps (countSep location) location t) (found, tick + 1) with
          ⟨found2, tick2⟩
        exact ih found2 tick2
      · rcases hinner : innerLoop ca filename
            (walkSteps (countSep location) location t) (found, tick + 1) with
          ⟨found1, tick1⟩
        rw [hinner] at he1 hcanc
        simp only at he1 hcanc
        have hhalts : (auto_search ca filename rest (found1, tick1)).1 =
            found1 :=
          auto_search_halts ca filename rest found1 tick1 hcanc
        rcases hinner2 : innerLoop none filename
            (walkSteps (countSep location) location t) (found, tick + 1) with
          ⟨found2, tick2⟩
        rw [hinner2] at he1
        simp only at he1
        obtain ⟨e2, he2⟩ := auto_search_extends none filename rest found2 tick2
        refine ⟨e1 ++ e2, ?_⟩
        rw [hhalts, he2, he1, List.append_assoc]

/-- Sanity link: the uncancelled search is exactly the concatenation of
the per-root searches, in root order. -/
theorem auto_search_none_eq (filename : String)
    (locs : List (String × DirTree)) (found : List String) (tick : Nat) :
    (auto_search none filename locs (found, tick)).1 =
      found ++ (locs.map fun lt => searchLoc filename lt.1 lt.2).flatten := by
  induction locs generalizing found tick with
  | nil => simp [auto_search]
  | cons l rest ih =>
    obtain ⟨location, t⟩ := l
    have hnc : checkCanceled none tick = false := rfl
    simp only [auto_search, hnc, Bool.false_eq_true, if_false]
    rw [innerLoop_none, ih]
    simp [searchLoc, List.append_assoc]

/-- C4: for every cancellation behaviour, searched filename and root
list, (a) the candidate sequence of the cancelled search is a prefix of
the candidate sequence of the same search without cancellation, and (b)
once cancellation is signalled (at a root boundary or anywhere else),
the search performs no further traversal: it returns the candidates
accumulated so far, unchanged. -/
theorem c4_cancellation (ca : Option Nat) (filename : String)
    (locs : List (String × DirTree)) :
    (∃ rest, (auto_search ca filename locs ([], 0)).1 ++ rest =
        (auto_search none filename locs ([], 0)).1) ∧
    (∀ found tick, checkCanceled ca tick = true →
      (auto_search ca filename locs (found, tick)).1 = found) := by
  constructor
  · obtain ⟨ext, he⟩ := auto_search_prefix ca filename locs [] 0
    exact ⟨ext, he.symm⟩
  · intro found tick hc
    exact auto_search_halts ca filename locs found tick hc

/-- Witness for C4: a concrete two-root search cancelled from the
second reading on. -/
theorem c4_cancellation_witness :
    (∃ rest, (auto_search (some 1) "f.txt"
        [("r", DirTree.node ["f.txt"] DirList.nil),
         ("r2", DirTree.node ["f.txt"] DirList.nil)] ([], 0)).1 ++ rest =
      (auto_search none "f.txt"
        [("r", DirTree.node ["f.txt"] DirList.nil),
         ("r2", DirTree.node ["f.txt"] DirList.nil)] ([], 0)).1) ∧
    (auto_search (some 1) "f.txt"
        [("r", DirTree.node ["f.txt"] DirList.nil),
         ("r2", DirTree.node ["f.txt"] DirList.nil)] (["x"], 5)).1 = ["x"] :=
  ⟨(c4_cancellation (some 1) "f.txt"
      [("r", DirTree.node ["f.txt"] DirList.nil),
       ("r2", DirTree.node ["f.txt"] DirList.nil)]).1,
   (c4_cancellation (some 1) "f.txt"
      [("r", DirTree.node ["f.txt"] DirList.nil),
       ("r2", DirTree.node ["f.txt"] DirList.nil)]).2 ["x"] 5 (by decide)⟩
